import Mathlib

/-!
Verification of the billing event-processing pipeline.

This file gives a shallow embedding of the core of the repository:
tracked webhook dispatch with per-handler completion rows
(`core/stripe/event_handler.py`), the webhook task and its retry policy
(`core/tasks.py`), deduplicating ingestion (`core/views.py`), the
retention sweep and scheduled-event poller (`core/tasks.py`), the
subscription status machine (`subscriptions/models.py`), entitlement
reconciliation (`entitlement/services.py`) and purchase refunds
(`purchases/models.py`).

Database rows are association lists, timestamps are integers (days or
seconds as appropriate), and monetary amounts are integers in cents
(`DecimalField(decimal_places=2)` values scaled by 100, which is exact).
Handler bodies are abstracted by their observable outcome (return
normally, raise `WebhookSkip`, raise `WebhookRetry`, raise any other
exception); everything else is translated statement by statement from
the Python source.
-/

/-- The observable outcome of one invocation of a handler's `handle()`:
normal return, `WebhookSkip`, `WebhookRetry` (incl. its subclass
`WebhookInfrastructureError`), or any other exception
(`core/exceptions.py`). -/
inductive HandlerOutcome where
  | ok : HandlerOutcome
  | skip : HandlerOutcome
  | retry : HandlerOutcome
  | err : HandlerOutcome
deriving Repr, DecidableEq

/-- Completion rows (`WebhookHandlerResult`, `core/models.py`) for one
webhook event: the `handler_name` key together with its `processed`
flag.  The unique constraint on `(event, handler_name)` makes the key
unique per event. -/
abbrev CompletionRows := List (String × Bool)

/-- The `processed` flag of the completion row for `name`, if the row
exists. -/
def lookupRow (rows : CompletionRows) (name : String) : Option Bool :=
  (rows.find? (fun r => r.1 == name)).map (fun r => r.2)

/-- Model of `WebhookHandlerResult.objects.get_or_create(event=…, handler_name=name)`:
returns the rows (with a fresh `processed=false` row appended when none
existed) and the `processed` flag of the row that was found or created. -/
def getOrCreate (rows : CompletionRows) (name : String) :
    CompletionRows × Bool :=
  match lookupRow rows name with
  | some b => (rows, b)
  | none => (rows ++ [(name, false)], false)

/-- Model of `WebhookHandlerResult.objects.filter(event=…, handler_name=name)
.update(processed=True, processed_at=now)`. -/
def setProcessed (rows : CompletionRows) (name : String) : CompletionRows :=
  rows.map (fun r => if r.1 == name then (r.1, true) else r)

/-- The handler loop of `WebhookHandler.dispatch_tracked`
(`core/stripe/event_handler.py` lines 68-91).  `handlers` pairs each
registered handler's qualified name with the outcome its `handle()`
produces on this pass.  Returns the names invoked in order, the final
completion rows, and `some e` when handler invocation raised `e` (the
exception propagates to the caller; the `get_or_create` row creation
happens outside the handler's transaction, so it survives the raise,
while `update(processed=True)` is only reached on normal return). -/
def dispatchGo : List (String × HandlerOutcome) → CompletionRows →
    List String × CompletionRows × Option HandlerOutcome
  | [], rows => ([], rows, none)
  | (name, out) :: rest, rows =>
    let step := getOrCreate rows name
    if step.2 then
      dispatchGo rest step.1
    else
      match out with
      | .ok =>
        let res := dispatchGo rest (setProcessed step.1 name)
        (name :: res.1, res.2.1, res.2.2)
      | e => ([name], step.1, some e)

/-- State of one `WebhookEvent` (`core/models.py`) as seen by
`process_webhook_event`: its `processed` flag, `processed_at`, its
completion rows, and the cumulative log of handler invocations run for
it (oldest first). -/
structure EventState where
  processed : Bool
  processedAt : Option Int
  rows : CompletionRows
  invoked : List String
deriving Repr, DecidableEq

/-- Outcome of one run of the celery task `process_webhook_event`:
either it returned normally, or it called `self.retry(exc=…)`. -/
inductive TaskResult where
  | done : TaskResult
  | retryRaised : TaskResult
deriving Repr, DecidableEq

/-- Model of `process_webhook_event` (`core/tasks.py` lines 17-48) for an event
that exists in the store: return immediately if `event.processed`;
otherwise run tracked dispatch, and on normal completion or on
`WebhookSkip` mark the event `processed=True, processed_at=now`; on any
other exception leave it unprocessed and call `self.retry`. -/
def processWebhookEvent (handlers : List (String × HandlerOutcome))
    (now : Int) (ev : EventState) : TaskResult × EventState :=
  if ev.processed then (.done, ev)
  else
    let d := dispatchGo handlers ev.rows
    let ev1 : EventState :=
      { processed := ev.processed, processedAt := ev.processedAt,
        rows := d.2.1, invoked := ev.invoked ++ d.1 }
    match d.2.2 with
    | none => (.done, { ev1 with processed := true, processedAt := some now })
    | some .skip => (.done, { ev1 with processed := true, processedAt := some now })
    | some _ => (.retryRaised, ev1)

/-- The `max_retries` of the `@shared_task` decorator on
`process_webhook_event` (`core/tasks.py` line 16). -/
def processWebhookEventMaxRetries : Nat := 5

/-- The `default_retry_delay` (seconds) of the same decorator. -/
def processWebhookEventDefaultRetryDelay : Nat := 30

/-- The celery task runtime driving `process_webhook_event` (external
collaborator, standard celery semantics for
`bind=True, max_retries=m, default_retry_delay=d`): the task runs with
a retries counter; `self.retry` re-enqueues the task after `d` seconds
while the counter is below `m`, and raises `MaxRetriesExceededError`
(terminal failure, no further run) once the counter has reached `m`.
Returns the final event state and the list of delays (seconds) between
consecutive runs.  `fuel` bounds the recursion; `maxRetries - retries + 1`
runs suffice. -/
def celeryDrive (handlers : List (String × HandlerOutcome)) (now : Int) :
    Nat → Nat → EventState → EventState × List Nat
  | _, 0, ev => (ev, [])
  | retries, fuel + 1, ev =>
    match processWebhookEvent handlers now ev with
    | (.done, ev1) => (ev1, [])
    | (.retryRaised, ev1) =>
      if retries < processWebhookEventMaxRetries then
        let rest := celeryDrive handlers now (retries + 1) fuel ev1
        (rest.1, processWebhookEventDefaultRetryDelay :: rest.2)
      else
        (ev1, [])

/-- A fresh, just-ingested event: unprocessed, no completion rows, no
invocations yet. -/
def freshEvent : EventState :=
  { processed := false, processedAt := none, rows := [], invoked := [] }

/-! ### Lemmas about completion rows -/

theorem lookupRow_nil (name : String) : lookupRow [] name = none := rfl

theorem lookupRow_cons (x : String × Bool) (xs : CompletionRows) (m : String) :
    lookupRow (x :: xs) m = if x.1 == m then some x.2 else lookupRow xs m := by
  simp only [lookupRow, List.find?]
  cases h : (x.1 == m) <;> simp [h]

theorem setProcessed_cons (x : String × Bool) (xs : CompletionRows) (name : String) :
    setProcessed (x :: xs) name =
      (if x.1 == name then (x.1, true) else x) :: setProcessed xs name := rfl

theorem lookupRow_append_single_self (rows : CompletionRows) (name : String)
    (h : lookupRow rows name = none) :
    lookupRow (rows ++ [(name, false)]) name = some false := by
  induction rows with
  | nil => simp [lookupRow_cons]
  | cons r rest ih =>
    rw [lookupRow_cons] at h
    rw [List.cons_append, lookupRow_cons]
    cases hr : (r.1 == name) with
    | true => simp [hr] at h
    | false =>
      simp only [hr, Bool.false_eq_true, if_false] at h ⊢
      exact ih h

theorem lookupRow_append_single_other (rows : CompletionRows) (name m : String)
    (h : m ≠ name) :
    lookupRow (rows ++ [(name, false)]) m = lookupRow rows m := by
  induction rows with
  | nil =>
    have hne : (name == m) = false := by
      simpa using fun e => h e.symm
    simp [lookupRow_cons, hne, lookupRow_nil]
  | cons r rest ih =>
    rw [List.cons_append, lookupRow_cons, lookupRow_cons]
    cases hr : (r.1 == m) with
    | true => simp
    | false => simpa using ih

theorem lookupRow_setProcessed_self (rows : CompletionRows) (name : String) :
    lookupRow (setProcessed rows name) name =
      (lookupRow rows name).map (fun _ => true) := by
  induction rows with
  | nil => rfl
  | cons r rest ih =>
    rw [setProcessed_cons, lookupRow_cons, lookupRow_cons]
    cases hr : (r.1 == name) with
    | true => simp [hr]
    | false => simpa [hr] using ih

theorem lookupRow_setProcessed_other (rows : CompletionRows) (name m : String)
    (h : m ≠ name) :
    lookupRow (setProcessed rows name) m = lookupRow rows m := by
  induction rows with
  | nil => rfl
  | cons r rest ih =>
    rw [setProcessed_cons, lookupRow_cons, lookupRow_cons]
    cases hn : (r.1 == name) with
    | true =>
      have he := eq_of_beq hn
      have hrm : (r.1 == m) = false := by
        simpa using fun e => h (by rw [← e, he])
      have hnm : (name == m) = false := by
        simpa using fun e => h e.symm
      simp only [hn, if_pos rfl]
      simpa [hrm, hnm] using ih
    | false =>
      simp only [hn, Bool.false_eq_true, if_false]
      cases hr : (r.1 == m) with
      | true => simp [hr]
      | false => simpa [hr] using ih

theorem getOrCreate_lookup_self (rows : CompletionRows) (name : String) :
    lookupRow (getOrCreate rows name).1 name = some (getOrCreate rows name).2 := by
  unfold getOrCreate
  cases h : lookupRow rows name with
  | some b => simp [h]
  | none => simpa [h] using lookupRow_append_single_self rows name h

theorem getOrCreate_lookup_other (rows : CompletionRows) (name m : String)
    (h : m ≠ name) :
    lookupRow (getOrCreate rows name).1 m = lookupRow rows m := by
  unfold getOrCreate
  cases hl : lookupRow rows name with
  | some b => simp
  | none => simpa using lookupRow_append_single_other rows name m h

theorem getOrCreate_flag (rows : CompletionRows) (name : String) :
    (getOrCreate rows name).2 = true ↔ lookupRow rows name = some true := by
  unfold getOrCreate
  cases h : lookupRow rows name with
  | some b => cases b <;> simp [h]
  | none => simp [h]

/-! ### Lemmas about the tracked-dispatch loop -/

theorem dispatchGo_invoked_subset (hs : List (String × HandlerOutcome))
    (rows : CompletionRows) :
    ∀ n ∈ (dispatchGo hs rows).1, n ∈ hs.map Prod.fst := by
  induction hs generalizing rows with
  | nil => intro n hn; simp [dispatchGo] at hn
  | cons p rest ih =>
    intro n hn
    obtain ⟨name, out⟩ := p
    simp only [dispatchGo] at hn
    by_cases hflag : (getOrCreate rows name).2
    · simp only [hflag, if_true] at hn
      exact List.mem_cons_of_mem _ (ih _ n hn)
    · simp only [hflag] at hn
      cases out with
      | ok =>
        simp only at hn
        rcases List.mem_cons.mp hn with h | h
        · simp [h]
        · exact List.mem_cons_of_mem _ (ih _ n h)
      | skip => simp at hn; simp [hn]
      | retry => simp at hn; simp [hn]
      | err => simp at hn; simp [hn]

theorem getOrCreate_fst_of_flag (rows : CompletionRows) (name : String)
    (h : (getOrCreate rows name).2 = true) :
    (getOrCreate rows name).1 = rows := by
  unfold getOrCreate at h ⊢
  cases hl : lookupRow rows name with
  | some b => simp
  | none => simp [hl] at h

theorem lookupRow_getOrCreate_some_true (rows : CompletionRows) (name n : String)
    (h : lookupRow rows n = some true) :
    lookupRow (getOrCreate rows name).1 n = some true := by
  by_cases he : n = name
  · subst he
    unfold getOrCreate
    simp [h]
  · rw [getOrCreate_lookup_other rows name n he]; exact h

theorem lookupRow_setProcessed_some_true (rows : CompletionRows) (name n : String)
    (h : lookupRow rows n = some true) :
    lookupRow (setProcessed rows name) n = some true := by
  by_cases he : n = name
  · subst he
    rw [lookupRow_setProcessed_self, h]
    rfl
  · rw [lookupRow_setProcessed_other rows name n he]; exact h

theorem dispatchGo_mono (hs : List (String × HandlerOutcome))
    (rows : CompletionRows) (n : String)
    (h : lookupRow rows n = some true) :
    lookupRow (dispatchGo hs rows).2.1 n = some true := by
  induction hs generalizing rows with
  | nil => exact h
  | cons p rest ih =>
    obtain ⟨name, out⟩ := p
    simp only [dispatchGo]
    by_cases hflag : (getOrCreate rows name).2
    · simp only [hflag, if_true]
      exact ih _ (lookupRow_getOrCreate_some_true rows name n h)
    · simp only [hflag]
      cases out with
      | ok =>
        simp only
        exact ih _ (lookupRow_setProcessed_some_true _ name n
          (lookupRow_getOrCreate_some_true rows name n h))
      | skip => exact lookupRow_getOrCreate_some_true rows name n h
      | retry => exact lookupRow_getOrCreate_some_true rows name n h
      | err => exact lookupRow_getOrCreate_some_true rows name n h

theorem dispatchGo_frame (hs : List (String × HandlerOutcome))
    (rows : CompletionRows) (n : String)
    (h : n ∉ (dispatchGo hs rows).1) :
    lookupRow (dispatchGo hs rows).2.1 n = lookupRow rows n := by
  induction hs generalizing rows with
  | nil => rfl
  | cons p rest ih =>
    obtain ⟨name, out⟩ := p
    simp only [dispatchGo] at h ⊢
    by_cases hflag : (getOrCreate rows name).2
    · simp only [hflag, if_true] at h ⊢
      rw [getOrCreate_fst_of_flag rows name hflag] at h ⊢
      exact ih _ h
    · simp only [hflag, Bool.false_eq_true, if_false] at h ⊢
      cases out with
      | ok =>
        have hne : n ≠ name := fun e => h (by simp [e])
        have hd : n ∉ (dispatchGo rest (setProcessed (getOrCreate rows name).1 name)).1 :=
          fun hmem => h (List.mem_cons_of_mem _ hmem)
        rw [ih _ hd, lookupRow_setProcessed_other _ name n hne,
          getOrCreate_lookup_other rows name n hne]
      | skip =>
        have hne : n ≠ name := by simp at h; exact h
        exact getOrCreate_lookup_other rows name n hne
      | retry =>
        have hne : n ≠ name := by simp at h; exact h
        exact getOrCreate_lookup_other rows name n hne
      | err =>
        have hne : n ≠ name := by simp at h; exact h
        exact getOrCreate_lookup_other rows name n hne

theorem dispatchGo_not_invoked_of_completed (hs : List (String × HandlerOutcome))
    (rows : CompletionRows) (n : String)
    (h : lookupRow rows n = some true) :
    n ∉ (dispatchGo hs rows).1 := by
  induction hs generalizing rows with
  | nil => simp [dispatchGo]
  | cons p rest ih =>
    obtain ⟨name, out⟩ := p
    simp only [dispatchGo]
    by_cases hflag : (getOrCreate rows name).2
    · simp only [hflag, if_true]
      rw [getOrCreate_fst_of_flag rows name hflag]
      exact ih _ h
    · have hne : n ≠ name := by
        intro e
        subst e
        exact hflag ((getOrCreate_flag rows n).mpr h)
      simp only [hflag]
      cases out with
      | ok =>
        simp only
        intro hmem
        rcases List.mem_cons.mp hmem with he | hmem2
        · exact hne he
        · exact ih _ (lookupRow_setProcessed_some_true _ name n
            (lookupRow_getOrCreate_some_true rows name n h)) hmem2
      | skip => simpa using hne
      | retry => simpa using hne
      | err => simpa using hne

theorem dispatchGo_ok_all_completed (hs : List (String × HandlerOutcome))
    (rows : CompletionRows)
    (h : (dispatchGo hs rows).2.2 = none) :
    ∀ p ∈ hs, lookupRow (dispatchGo hs rows).2.1 p.1 = some true := by
  induction hs generalizing rows with
  | nil => simp
  | cons p rest ih =>
    obtain ⟨name, out⟩ := p
    simp only [dispatchGo] at h ⊢
    by_cases hflag : (getOrCreate rows name).2
    · simp only [hflag, if_true] at h ⊢
      rw [getOrCreate_fst_of_flag rows name hflag] at h ⊢
      intro q hq
      rcases List.mem_cons.mp hq with he | hq2
      · subst he
        exact dispatchGo_mono rest rows name ((getOrCreate_flag rows name).mp hflag)
      · exact ih _ h q hq2
    · simp only [hflag, Bool.false_eq_true, if_false] at h ⊢
      cases out with
      | ok =>
        simp only at h ⊢
        have hname : lookupRow (setProcessed (getOrCreate rows name).1 name) name =
            some true := by
          rw [lookupRow_setProcessed_self, getOrCreate_lookup_self]
          rfl
        intro q hq
        rcases List.mem_cons.mp hq with he | hq2
        · rw [he]
          exact dispatchGo_mono rest _ name hname
        · exact ih _ h q hq2
      | skip => simp at h
      | retry => simp at h
      | err => simp at h

theorem dispatchGo_raised (hs : List (String × HandlerOutcome))
    (rows : CompletionRows) (e : HandlerOutcome)
    (h : (dispatchGo hs rows).2.2 = some e) :
    ∃ d n, (dispatchGo hs rows).1 = d ++ [n] ∧
      lookupRow (dispatchGo hs rows).2.1 n = some false ∧
      ∀ m ∈ d, lookupRow (dispatchGo hs rows).2.1 m = some true := by
  induction hs generalizing rows with
  | nil => simp [dispatchGo] at h
  | cons p rest ih =>
    obtain ⟨name, out⟩ := p
    simp only [dispatchGo] at h ⊢
    by_cases hflag : (getOrCreate rows name).2
    · simp only [hflag, if_true] at h ⊢
      exact ih _ h
    · simp only [hflag, Bool.false_eq_true, if_false] at h ⊢
      cases out with
      | ok =>
        simp only at h ⊢
        obtain ⟨d, n, hd, hn, hm⟩ := ih _ h
        refine ⟨name :: d, n, by simp [hd], hn, ?_⟩
        intro m hm2
        rcases List.mem_cons.mp hm2 with he | hm3
        · have hname : lookupRow (setProcessed (getOrCreate rows name).1 name) name =
              some true := by
            rw [lookupRow_setProcessed_self, getOrCreate_lookup_self]
            rfl
          rw [he]
          exact dispatchGo_mono rest _ name hname
        · exact hm m hm3
      | skip =>
        refine ⟨[], name, rfl, ?_, by simp⟩
        have := getOrCreate_lookup_self rows name
        rwa [Bool.eq_false_iff.mpr hflag] at this
      | retry =>
        refine ⟨[], name, rfl, ?_, by simp⟩
        have := getOrCreate_lookup_self rows name
        rwa [Bool.eq_false_iff.mpr hflag] at this
      | err =>
        refine ⟨[], name, rfl, ?_, by simp⟩
        have := getOrCreate_lookup_self rows name
        rwa [Bool.eq_false_iff.mpr hflag] at this

theorem dispatchGo_exact (hs : List (String × HandlerOutcome))
    (rows : CompletionRows)
    (hnd : (hs.map Prod.fst).Nodup)
    (hok : ∀ p ∈ hs, p.2 = HandlerOutcome.ok) :
    (dispatchGo hs rows).1 =
      (hs.map Prod.fst).filter (fun n => lookupRow rows n != some true) := by
  induction hs generalizing rows with
  | nil => rfl
  | cons p rest ih =>
    obtain ⟨name, out⟩ := p
    have hout : out = HandlerOutcome.ok := hok (name, out) (List.mem_cons_self _ _)
    subst hout
    have hnd1 : (List.map Prod.fst ((name, HandlerOutcome.ok) :: rest)).Nodup := hnd
    rw [List.map_cons] at hnd1
    have hnd2 := (List.nodup_cons.mp hnd1).2
    have hnotin : name ∉ rest.map Prod.fst := (List.nodup_cons.mp hnd1).1
    simp only [dispatchGo, List.map_cons, List.filter]
    by_cases hflag : (getOrCreate rows name).2
    · have hl : lookupRow rows name = some true := (getOrCreate_flag rows name).mp hflag
      have hpred : (lookupRow rows name != some true) = false := by
        simp [hl]
      simp only [hflag, if_true, hpred]
      rw [getOrCreate_fst_of_flag rows name hflag]
      exact ih rows hnd2 (fun q hq => hok q (List.mem_cons_of_mem _ hq))
    · have hl : lookupRow rows name ≠ some true :=
        fun e => hflag ((getOrCreate_flag rows name).mpr e)
      have hpred : (lookupRow rows name != some true) = true := by
        simpa using hl
      simp only [hflag, Bool.false_eq_true, if_false, hpred]
      have hrows2 : ∀ m ∈ rest.map Prod.fst,
          (lookupRow (setProcessed (getOrCreate rows name).1 name) m != some true) =
            (lookupRow rows m != some true) := by
        intro m hm
        have hne : m ≠ name := fun e => hnotin (e ▸ hm)
        rw [lookupRow_setProcessed_other _ name m hne,
          getOrCreate_lookup_other rows name m hne]
      rw [ih _ hnd2 (fun q hq => hok q (List.mem_cons_of_mem _ hq))]
      rw [List.filter_congr hrows2]

theorem dispatchGo_reaches_raise (pre post : List (String × HandlerOutcome))
    (nm : String) (out : HandlerOutcome) (rows : CompletionRows)
    (hok : ∀ p ∈ pre, p.2 = HandlerOutcome.ok)
    (hnm1 : lookupRow rows nm ≠ some true)
    (hnm2 : nm ∉ pre.map Prod.fst)
    (hout : out ≠ HandlerOutcome.ok) :
    (dispatchGo (pre ++ (nm, out) :: post) rows).2.2 = some out ∧
    ∀ n ∈ (dispatchGo (pre ++ (nm, out) :: post) rows).1,
      n ∈ pre.map Prod.fst ∨ n = nm := by
  induction pre generalizing rows with
  | nil =>
    have hflag : (getOrCreate rows nm).2 = false :=
      Bool.eq_false_iff.mpr (fun e => hnm1 ((getOrCreate_flag rows nm).mp e))
    simp only [List.nil_append, dispatchGo, hflag, Bool.false_eq_true, if_false]
    cases out with
    | ok => exact absurd rfl hout
    | skip => exact ⟨by simp, by simp⟩
    | retry => exact ⟨by simp, by simp⟩
    | err => exact ⟨by simp, by simp⟩
  | cons q pre' ih =>
    obtain ⟨qn, qo⟩ := q
    have hqo : qo = HandlerOutcome.ok := hok (qn, qo) (List.mem_cons_self _ _)
    subst hqo
    have hok2 : ∀ p ∈ pre', p.2 = HandlerOutcome.ok :=
      fun p hp => hok p (List.mem_cons_of_mem _ hp)
    have hne : nm ≠ qn := by
      intro e
      exact hnm2 (by simp [e])
    have hnm2' : nm ∉ pre'.map Prod.fst := fun hm => hnm2 (by simp [hm])
    simp only [List.cons_append, dispatchGo]
    by_cases hflag : (getOrCreate rows qn).2
    · simp only [hflag, if_true]
      rw [getOrCreate_fst_of_flag rows qn hflag]
      obtain ⟨h1, h2⟩ := ih rows hok2 hnm1 hnm2'
      exact ⟨h1, fun n hn => match h2 n hn with
        | Or.inl hx => Or.inl (List.mem_cons_of_mem _ hx)
        | Or.inr hx => Or.inr hx⟩
    · simp only [hflag, Bool.false_eq_true, if_false]
      have hnm1' : lookupRow (setProcessed (getOrCreate rows qn).1 qn) nm ≠ some true := by
        rw [lookupRow_setProcessed_other _ qn nm hne,
          getOrCreate_lookup_other rows qn nm hne]
        exact hnm1
      obtain ⟨h1, h2⟩ := ih _ hok2 hnm1' hnm2'
      refine ⟨h1, ?_⟩
      intro n hn
      rcases List.mem_cons.mp hn with he | hn2
      · exact Or.inl (by simp [he])
      · exact match h2 n hn2 with
        | Or.inl hx => Or.inl (List.mem_cons_of_mem _ hx)
        | Or.inr hx => Or.inr hx

/-! ### Claim theorems about tracked dispatch and the webhook task -/

/-- C1: Tracked dispatch is idempotent at handler granularity: every
handler that `dispatch_tracked` invokes first gets a completion row
ensured for it; a handler whose row is already completed is never
invoked again; when the pass completes without exception every
handler's row is completed, and when a handler raises, every handler
invoked before it has a completed row while the failing handler's row
exists but stays incomplete; consequently a re-dispatch in which the
remaining handlers succeed invokes exactly the handlers whose rows are
not completed, in registration order, skipping every handler that
already succeeded. -/
theorem dispatch_tracked_idempotent (handlers : List (String × HandlerOutcome))
    (rows : CompletionRows)
    (hnd : (handlers.map Prod.fst).Nodup) :
    (∀ n ∈ (dispatchGo handlers rows).1,
        lookupRow (dispatchGo handlers rows).2.1 n ≠ none) ∧
    (∀ n, lookupRow rows n = some true → n ∉ (dispatchGo handlers rows).1) ∧
    ((dispatchGo handlers rows).2.2 = none →
      ∀ p ∈ handlers, lookupRow (dispatchGo handlers rows).2.1 p.1 = some true) ∧
    (∀ e, (dispatchGo handlers rows).2.2 = some e →
      ∃ d n, (dispatchGo handlers rows).1 = d ++ [n] ∧
        lookupRow (dispatchGo handlers rows).2.1 n = some false ∧
        ∀ m ∈ d, lookupRow (dispatchGo handlers rows).2.1 m = some true) ∧
    ((∀ p ∈ handlers, p.2 = HandlerOutcome.ok) →
      (dispatchGo handlers rows).1 =
        (handlers.map Prod.fst).filter (fun n => lookupRow rows n != some true)) := by
  refine ⟨?_, ?_, ?_, ?_, ?_⟩
  · intro n hn
    cases hres : (dispatchGo handlers rows).2.2 with
    | none =>
      obtain ⟨p, hp, hpe⟩ := List.mem_map.mp (dispatchGo_invoked_subset handlers rows n hn)
      rw [← hpe, dispatchGo_ok_all_completed handlers rows hres p hp]
      simp
    | some e =>
      obtain ⟨d, last, hd, hlast, hmem⟩ := dispatchGo_raised handlers rows e hres
      rw [hd] at hn
      rcases List.mem_append.mp hn with h1 | h2
      · rw [hmem n h1]; simp
      · have he : n = last := by simpa using h2
        rw [he, hlast]; simp
  · exact fun n h => dispatchGo_not_invoked_of_completed handlers rows n h
  · exact dispatchGo_ok_all_completed handlers rows
  · exact fun e he => dispatchGo_raised handlers rows e he
  · exact fun hok => dispatchGo_exact handlers rows hnd hok

theorem dispatch_tracked_idempotent_witness :
    ((([("HandleA", HandlerOutcome.ok), ("HandleB", HandlerOutcome.err)] :
        List (String × HandlerOutcome)).map Prod.fst).Nodup) ∧
    "HandleA" ∉ (dispatchGo [("HandleA", HandlerOutcome.ok), ("HandleB", HandlerOutcome.err)]
      [("HandleA", true)]).1 :=
  ⟨by decide,
    (dispatch_tracked_idempotent
      [("HandleA", HandlerOutcome.ok), ("HandleB", HandlerOutcome.err)]
      [("HandleA", true)] (by decide)).2.1 "HandleA" (by decide)⟩

/-- C5: a handler raising Skip during tracked dispatch is a terminal
success: `process_webhook_event` catches `WebhookSkip`, marks the event
fully processed with a `processed_at` timestamp, and returns normally,
so the task runtime schedules no retry. -/
theorem webhook_skip_terminal (handlers : List (String × HandlerOutcome))
    (now : Int) (ev : EventState)
    (hproc : ev.processed = false)
    (hskip : (dispatchGo handlers ev.rows).2.2 = some HandlerOutcome.skip) :
    (processWebhookEvent handlers now ev).1 = TaskResult.done ∧
    (processWebhookEvent handlers now ev).2.processed = true ∧
    (processWebhookEvent handlers now ev).2.processedAt = some now := by
  unfold processWebhookEvent
  rw [hproc]
  simp [Bool.false_eq_true, if_false, hskip]

theorem webhook_skip_terminal_witness :
    (freshEvent.processed = false ∧
      (dispatchGo [("H", HandlerOutcome.skip)] freshEvent.rows).2.2 =
        some HandlerOutcome.skip) ∧
    (processWebhookEvent [("H", HandlerOutcome.skip)] 5 freshEvent).1 = TaskResult.done ∧
    (processWebhookEvent [("H", HandlerOutcome.skip)] 5 freshEvent).2.processed = true :=
  ⟨⟨by decide, by decide⟩,
    (webhook_skip_terminal [("H", HandlerOutcome.skip)] 5 freshEvent (by decide) (by decide)).1,
    (webhook_skip_terminal [("H", HandlerOutcome.skip)] 5 freshEvent (by decide) (by decide)).2.1⟩

/-- C10 (implicit): when a handler raises Skip during tracked dispatch,
every handler registered after it for that event type is never invoked
for that event: not in that pass (the propagating Skip aborts the
loop), and not in any later pass (the task marks the event processed,
and `process_webhook_event` on a processed event returns without
dispatching), so those handlers' completion rows keep exactly the state
they had before the pass — absent or incomplete — while the event is
fully processed. -/
theorem skip_aborts_later_handlers (pre post : List (String × HandlerOutcome))
    (nm : String) (now now2 : Int) (ev : EventState)
    (hproc : ev.processed = false)
    (hok : ∀ p ∈ pre, p.2 = HandlerOutcome.ok)
    (hnm1 : lookupRow ev.rows nm ≠ some true)
    (hnm2 : nm ∉ pre.map Prod.fst)
    (hdisj : ∀ q ∈ post.map Prod.fst, q ∉ pre.map Prod.fst ∧ q ≠ nm) :
    (processWebhookEvent (pre ++ (nm, HandlerOutcome.skip) :: post) now ev).1 =
        TaskResult.done ∧
    (processWebhookEvent (pre ++ (nm, HandlerOutcome.skip) :: post) now ev).2.processed =
        true ∧
    (∀ q ∈ post.map Prod.fst,
      q ∉ (dispatchGo (pre ++ (nm, HandlerOutcome.skip) :: post) ev.rows).1) ∧
    (processWebhookEvent (pre ++ (nm, HandlerOutcome.skip) :: post) now ev).2.invoked =
        ev.invoked ++ (dispatchGo (pre ++ (nm, HandlerOutcome.skip) :: post) ev.rows).1 ∧
    (∀ q ∈ post.map Prod.fst,
      lookupRow
        (processWebhookEvent (pre ++ (nm, HandlerOutcome.skip) :: post) now ev).2.rows q =
      lookupRow ev.rows q) ∧
    processWebhookEvent (pre ++ (nm, HandlerOutcome.skip) :: post) now2
        (processWebhookEvent (pre ++ (nm, HandlerOutcome.skip) :: post) now ev).2 =
      (TaskResult.done,
        (processWebhookEvent (pre ++ (nm, HandlerOutcome.skip) :: post) now ev).2) := by
  obtain ⟨hres, hsub⟩ := dispatchGo_reaches_raise pre post nm HandlerOutcome.skip ev.rows
    hok hnm1 hnm2 (by simp)
  have hnotinv : ∀ q ∈ post.map Prod.fst,
      q ∉ (dispatchGo (pre ++ (nm, HandlerOutcome.skip) :: post) ev.rows).1 := by
    intro q hq hmem
    rcases hsub q hmem with h1 | h2
    · exact (hdisj q hq).1 h1
    · exact (hdisj q hq).2 h2
  have hrun : processWebhookEvent (pre ++ (nm, HandlerOutcome.skip) :: post) now ev =
      (TaskResult.done,
        { processed := true, processedAt := some now,
          rows := (dispatchGo (pre ++ (nm, HandlerOutcome.skip) :: post) ev.rows).2.1,
          invoked := ev.invoked ++
            (dispatchGo (pre ++ (nm, HandlerOutcome.skip) :: post) ev.rows).1 }) := by
    unfold processWebhookEvent
    rw [hproc]
    simp [Bool.false_eq_true, if_false, hres]
  refine ⟨by rw [hrun], by rw [hrun], hnotinv, by rw [hrun], ?_, ?_⟩
  · intro q hq
    rw [hrun]
    exact dispatchGo_frame _ ev.rows q (hnotinv q hq)
  · rw [hrun]
    unfold processWebhookEvent
    simp

theorem skip_aborts_later_handlers_witness :
    (freshEvent.processed = false ∧
      (∀ p ∈ ([("A", HandlerOutcome.ok)] : List (String × HandlerOutcome)),
        p.2 = HandlerOutcome.ok) ∧
      lookupRow freshEvent.rows "B" ≠ some true ∧
      "B" ∉ ([("A", HandlerOutcome.ok)] : List (String × HandlerOutcome)).map Prod.fst ∧
      (∀ q ∈ ([("C", HandlerOutcome.ok)] : List (String × HandlerOutcome)).map Prod.fst,
        q ∉ ([("A", HandlerOutcome.ok)] :
          List (String × HandlerOutcome)).map Prod.fst ∧ q ≠ "B")) ∧
    (∀ q ∈ ([("C", HandlerOutcome.ok)] : List (String × HandlerOutcome)).map Prod.fst,
      q ∉ (dispatchGo ([("A", HandlerOutcome.ok)] ++
        ("B", HandlerOutcome.skip) :: [("C", HandlerOutcome.ok)]) freshEvent.rows).1) :=
  ⟨⟨by decide, by decide, by decide, by decide, by decide⟩,
    (skip_aborts_later_handlers [("A", HandlerOutcome.ok)] [("C", HandlerOutcome.ok)]
      "B" 1 2 freshEvent (by decide) (by decide) (by decide) (by decide)
      (by decide)).2.2.1⟩

/-! ### The retry policy of the webhook task -/

theorem processWebhookEvent_retry_fresh (name : String) (now : Int) :
    processWebhookEvent [(name, HandlerOutcome.retry)] now freshEvent =
      (TaskResult.retryRaised,
        { processed := false, processedAt := none,
          rows := [(name, false)], invoked := [name] }) := by
  simp [processWebhookEvent, dispatchGo, getOrCreate, lookupRow, freshEvent, List.find?]

theorem processWebhookEvent_retry_step (name : String) (now : Int) (l : List String) :
    processWebhookEvent [(name, HandlerOutcome.retry)] now
        { processed := false, processedAt := none,
          rows := [(name, false)], invoked := l } =
      (TaskResult.retryRaised,
        { processed := false, processedAt := none,
          rows := [(name, false)], invoked := l ++ [name] }) := by
  simp [processWebhookEvent, dispatchGo, getOrCreate, lookupRow, List.find?]

theorem celeryDrive_retry_loop (name : String) (now : Int) :
    ∀ fuel retries l, retries + fuel = processWebhookEventMaxRetries + 1 → 0 < fuel →
    celeryDrive [(name, HandlerOutcome.retry)] now retries fuel
        { processed := false, processedAt := none,
          rows := [(name, false)], invoked := l } =
      ({ processed := false, processedAt := none,
          rows := [(name, false)], invoked := l ++ List.replicate fuel name },
        List.replicate (fuel - 1) processWebhookEventDefaultRetryDelay) := by
  intro fuel
  induction fuel with
  | zero => intro retries l _ h0; exact absurd h0 (by simp)
  | succ f ih =>
    intro retries l hsum _
    rw [celeryDrive, processWebhookEvent_retry_step name now l]
    dsimp only
    by_cases hlt : retries < processWebhookEventMaxRetries
    · obtain ⟨f2, hf⟩ : ∃ f2, f = f2 + 1 := by
        have h1 : 1 ≤ f := by
          simp only [processWebhookEventMaxRetries] at hsum hlt
          omega
        exact ⟨f - 1, by omega⟩
      subst hf
      have hsum2 : (retries + 1) + (f2 + 1) = processWebhookEventMaxRetries + 1 := by
        omega
      simp only [hlt, if_true]
      rw [ih (retries + 1) (l ++ [name]) hsum2 (by simp)]
      simp [List.replicate_succ, List.append_assoc]
    · have hf0 : f = 0 := by
        simp only [processWebhookEventMaxRetries] at hsum hlt
        omega
      subst hf0
      simp [hlt, List.replicate]

/-- C9 (amended): retry is bounded: a handler that raises Retry on
every invocation is invoked exactly `max_retries + 1 = 6` times in
total, with a constant delay of `default_retry_delay = 30` seconds
between consecutive attempts (5 gaps), after which the event remains
unprocessed (`processed=false`) — it is not silently dropped, only the
task stops being re-enqueued. -/
theorem webhook_retry_bounded (name : String) (now : Int) :
    (celeryDrive [(name, HandlerOutcome.retry)] now 0
        (processWebhookEventMaxRetries + 1) freshEvent).1.invoked =
      List.replicate (processWebhookEventMaxRetries + 1) name ∧
    (celeryDrive [(name, HandlerOutcome.retry)] now 0
        (processWebhookEventMaxRetries + 1) freshEvent).2 =
      List.replicate processWebhookEventMaxRetries
        processWebhookEventDefaultRetryDelay ∧
    (celeryDrive [(name, HandlerOutcome.retry)] now 0
        (processWebhookEventMaxRetries + 1) freshEvent).1.processed = false := by
  rw [celeryDrive, processWebhookEvent_retry_fresh name now]
  have h0 : 0 < processWebhookEventMaxRetries := by
    simp [processWebhookEventMaxRetries]
  simp only [h0, if_true]
  rw [celeryDrive_retry_loop name now processWebhookEventMaxRetries 1 [name]
    (by omega) h0]
  refine ⟨?_, ?_, rfl⟩
  · show [name] ++ List.replicate processWebhookEventMaxRetries name =
      List.replicate (processWebhookEventMaxRetries + 1) name
    rw [List.replicate_succ]
    rfl
  · show processWebhookEventDefaultRetryDelay ::
        List.replicate (processWebhookEventMaxRetries - 1)
          processWebhookEventDefaultRetryDelay =
      List.replicate processWebhookEventMaxRetries processWebhookEventDefaultRetryDelay
    have : processWebhookEventMaxRetries = (processWebhookEventMaxRetries - 1) + 1 := by
      simp [processWebhookEventMaxRetries]
    rw [this]
    rfl

/-- C9 counterexample: with the source's task declaration
(`max_retries=5, default_retry_delay=30`), an always-Retry handler is
invoked 6 times, not 5, and the delays between attempts are a constant
30 seconds, not the increasing schedule 60/300/900/3600/7200 claimed by
the spec. -/
theorem webhook_retry_schedule_cex :
    (celeryDrive [("H", HandlerOutcome.retry)] 0 0
        (processWebhookEventMaxRetries + 1) freshEvent).1.invoked.length = 6 ∧
    ¬ (celeryDrive [("H", HandlerOutcome.retry)] 0 0
        (processWebhookEventMaxRetries + 1) freshEvent).1.invoked.length = 5 ∧
    (celeryDrive [("H", HandlerOutcome.retry)] 0 0
        (processWebhookEventMaxRetries + 1) freshEvent).2 = [30, 30, 30, 30, 30] ∧
    ¬ (celeryDrive [("H", HandlerOutcome.retry)] 0 0
        (processWebhookEventMaxRetries + 1) freshEvent).2 =
      [60, 300, 900, 3600, 7200] ∧
    (celeryDrive [("H", HandlerOutcome.retry)] 0 0
        (processWebhookEventMaxRetries + 1) freshEvent).1.processed = false := by
  decide

/-! ### Deduplicating ingestion (`stripe_webhook`, `core/views.py`) -/

/-- Model of `WebhookEvent.objects.create(stripe_event_id=id, …)` against the
unique constraint on `stripe_event_id`: `none` models the
`IntegrityError` raised on a uniqueness violation, otherwise the new
row is stored. -/
def insertEvent (db : List String) (id : String) : Option (List String) :=
  if id ∈ db then none else some (db ++ [id])

/-- The ingestion path of `stripe_webhook` (`core/views.py` lines
139-155), after signature verification: `db` is the set of stored
`stripe_event_id`s at the `exists()` check; `concurrent = true` models
a concurrent request inserting the same id between the `exists()` check
and the `create()` (the race the `except IntegrityError` guards).
Returns the resulting store, the HTTP status, and whether this call
created the row (and hence enqueued `process_webhook_event.delay`). -/
def stripeWebhookIngest (db : List String) (id : String) (concurrent : Bool) :
    List String × Nat × Bool :=
  if id ∈ db then (db, 200, false)
  else
    let db1 := if concurrent then db ++ [id] else db
    match insertEvent db1 id with
    | none => (db1, 200, false)
    | some db2 => (db2, 200, true)

/-- C2: ingestion is deduplicating and never errors on a duplicate: the
first attempt with a new id creates the row and acknowledges 200; a
second sequential attempt with the same id stores no second row,
reports `created=false` and still acknowledges 200; and when a
concurrent insert wins the race, the uniqueness violation is caught,
the caller gets 200 with `created=false`, and exactly one row for the
id exists. -/
theorem ingest_dedup (db : List String) (id : String) (c : Bool)
    (hnew : id ∉ db) :
    (stripeWebhookIngest db id false).2.1 = 200 ∧
    (stripeWebhookIngest db id false).2.2 = true ∧
    (stripeWebhookIngest db id false).1 = db ++ [id] ∧
    (stripeWebhookIngest (stripeWebhookIngest db id false).1 id c).2.1 = 200 ∧
    (stripeWebhookIngest (stripeWebhookIngest db id false).1 id c).2.2 = false ∧
    (stripeWebhookIngest (stripeWebhookIngest db id false).1 id c).1 =
      (stripeWebhookIngest db id false).1 ∧
    ((stripeWebhookIngest (stripeWebhookIngest db id false).1 id c).1).count id = 1 ∧
    (stripeWebhookIngest db id true).2.1 = 200 ∧
    (stripeWebhookIngest db id true).2.2 = false ∧
    ((stripeWebhookIngest db id true).1).count id = 1 := by
  have hfirst : stripeWebhookIngest db id false = (db ++ [id], 200, true) := by
    simp [stripeWebhookIngest, insertEvent, hnew]
  have hmem : id ∈ db ++ [id] := by simp
  have hsecond : stripeWebhookIngest (db ++ [id]) id c = (db ++ [id], 200, false) := by
    simp [stripeWebhookIngest, hmem]
  have hcount : (db ++ [id]).count id = 1 := by
    rw [List.count_append]
    simp [List.count_eq_zero_of_not_mem hnew]
  have hrace : stripeWebhookIngest db id true = (db ++ [id], 200, false) := by
    simp [stripeWebhookIngest, insertEvent, hnew]
  rw [hfirst]
  simp [hsecond, hrace, hcount]

theorem ingest_dedup_witness :
    ("evt_1" ∉ (["evt_0"] : List String)) ∧
    (stripeWebhookIngest (stripeWebhookIngest ["evt_0"] "evt_1" false).1 "evt_1"
      false).2.2 = false :=
  ⟨by decide, (ingest_dedup ["evt_0"] "evt_1" false (by decide)).2.2.2.2.1⟩

/-! ### Retention sweep (`cleanup_webhook_events`, `core/tasks.py`) -/

/-- A stored `WebhookEvent` row as the retention sweep sees it:
`createdAt` in days, and the `processed` flag. -/
structure StoredEvent where
  stripeEventId : String
  createdAt : Int
  processed : Bool
deriving Repr, DecidableEq

/-- Model of `cleanup_webhook_events` (`core/tasks.py` lines 52-55): deletes
every row with `created_at < now - 90 days`; the surviving store is
returned.  The filter contains no condition on `processed`. -/
def cleanupWebhookEvents (now : Int) (events : List StoredEvent) : List StoredEvent :=
  events.filter (fun e => !(e.createdAt < now - 90 : Bool))

/-- C3 counterexample: an unprocessed event 91 days old is deleted by
the sweep, refuting the claim that events with `processed=false` are
never deleted. -/
theorem cleanup_deletes_unprocessed_cex :
    (StoredEvent.mk "evt_old" 9 false).processed = false ∧
    cleanupWebhookEvents 100 [StoredEvent.mk "evt_old" 9 false] = [] := by
  decide

/-- C3 (amended): the retention sweep deletes exactly the events whose
`created_at` is older than the 90-day horizon, regardless of the
processed flag — an unprocessed event older than the horizon is deleted
too (the filter has no `processed` condition, and the repository's own
test deletes an unprocessed 91-day-old event); every event at or within
the horizon is kept. -/
theorem cleanup_age_only (now : Int) (events : List StoredEvent) (e : StoredEvent) :
    e ∈ cleanupWebhookEvents now events ↔ e ∈ events ∧ ¬ e.createdAt < now - 90 := by
  simp [cleanupWebhookEvents]

/-! ### Subscription status machine (`subscriptions/models.py`) -/

/-- The `SubscriptionStatus` enum (`subscriptions/models.py` lines 9-17). -/
inductive SubscriptionStatus where
  | active : SubscriptionStatus
  | pastDue : SubscriptionStatus
  | canceled : SubscriptionStatus
  | incomplete : SubscriptionStatus
  | incompleteExpired : SubscriptionStatus
  | trialing : SubscriptionStatus
  | unpaid : SubscriptionStatus
  | paused : SubscriptionStatus
deriving Repr, DecidableEq

/-- The `EXPECTED_TRANSITIONS` table (`subscriptions/models.py` lines 20-29): the
static table of expected outgoing transitions per status. -/
def EXPECTED_TRANSITIONS : SubscriptionStatus → List SubscriptionStatus
  | .active => [.pastDue, .canceled, .paused, .unpaid]
  | .trialing => [.active, .pastDue, .canceled, .paused]
  | .pastDue => [.active, .canceled, .unpaid]
  | .paused => [.active, .canceled]
  | .incomplete => [.active, .trialing, .incompleteExpired, .canceled]
  | .incompleteExpired => []
  | .unpaid => [.canceled]
  | .canceled => []

/-- Model of `Subscription.apply_new_status` (`subscriptions/models.py` lines
87-90): logs a warning when the pair is not in the table, then
unconditionally assigns the new status.  Returns the resulting status
and whether the warning was logged. -/
def apply_new_status (s newStatus : SubscriptionStatus) :
    SubscriptionStatus × Bool :=
  if newStatus ∈ EXPECTED_TRANSITIONS s then (newStatus, false)
  else (newStatus, true)

/-- C7: applying a status change that is not in the static
expected-transitions table never raises and never blocks: for every
current and new status `apply_new_status` sets the status to the new
value, logging a warning exactly when the pair is not in the table; and
the table gives `incomplete_expired` and `canceled` no outgoing
transitions. -/
theorem apply_new_status_permissive (s newStatus : SubscriptionStatus) :
    (apply_new_status s newStatus).1 = newStatus ∧
    ((apply_new_status s newStatus).2 = true ↔
      newStatus ∉ EXPECTED_TRANSITIONS s) ∧
    EXPECTED_TRANSITIONS SubscriptionStatus.incompleteExpired = [] ∧
    EXPECTED_TRANSITIONS SubscriptionStatus.canceled = [] := by
  unfold apply_new_status
  by_cases h : newStatus ∈ EXPECTED_TRANSITIONS s
  · simp [h]
    exact ⟨rfl, rfl⟩
  · simp [h]
    exact ⟨rfl, rfl⟩

/-! ### Purchase refunds (`purchases/models.py`) -/

/-- The `PurchaseStatus` enum (`purchases/models.py` lines 13-17). -/
inductive PurchaseStatus where
  | paid : PurchaseStatus
  | refunded : PurchaseStatus
  | partRefunded : PurchaseStatus
  | disputed : PurchaseStatus
deriving Repr, DecidableEq

/-- A `Purchase` row's refund-relevant columns, in integer cents (the
`DecimalField(max_digits=10, decimal_places=2)` values scaled by 100,
an exact representation): `amount`, `amount_refunded`, `status`. -/
structure PurchaseRow where
  amount : Int
  amountRefunded : Int
  status : PurchaseStatus
deriving Repr, DecidableEq

/-- Model of `Purchase.refund` (`purchases/models.py` lines 70-89): one atomic
UPDATE sets `amount_refunded = amount_refunded + refund_amount` and
`status = CASE WHEN amount_refunded >= amount - refund_amount THEN
refunded ELSE partially_refunded END`, every column reference reading
the pre-update row.  `none` for `amount` means a full refund of the
original amount. -/
def PurchaseRow.refund (p : PurchaseRow) (amount : Option Int) : PurchaseRow :=
  let refundAmount := amount.getD p.amount
  { amount := p.amount
    amountRefunded := p.amountRefunded + refundAmount
    status :=
      if p.amountRefunded ≥ p.amount - refundAmount then PurchaseStatus.refunded
      else PurchaseStatus.partRefunded }

/-- C8 counterexample: `refund` does not clamp: a purchase of 29.99
(2999 cents) refunded 10.00 and then 25.00 ends with
`amount_refunded = 35.00 > 29.99`, so "amount_refunded never exceeds
the original amount" is false as an unconditional property of the
code. -/
theorem refund_exceeds_amount_cex :
    (((PurchaseRow.mk 2999 0 PurchaseStatus.paid).refund (some 1000)).refund
        (some 2500)).amountRefunded = 3500 ∧
    ¬ (((PurchaseRow.mk 2999 0 PurchaseStatus.paid).refund (some 1000)).refund
        (some 2500)).amountRefunded ≤
      (((PurchaseRow.mk 2999 0 PurchaseStatus.paid).refund (some 1000)).refund
        (some 2500)).amount := by
  decide

/-- C8 (amended): refund arithmetic accumulates by atomic increment:
`amount_refunded` is always the stored value plus the refund amount
(never a blind overwrite), the status becomes `refunded` exactly when
the accumulated refunds reach the amount and `partially_refunded`
otherwise, the 29.99-then-10.00-then-19.99 scenario ends with
`amount_refunded = 29.99` and status `refunded`, and `amount_refunded`
does not exceed the original amount provided the refund amounts sum to
at most the original amount (the code itself applies no clamp). -/
theorem refund_arithmetic (p : PurchaseRow) (a : Int)
    (hb : p.amountRefunded + a ≤ p.amount) :
    ((p.refund (some a)).amountRefunded = p.amountRefunded + a) ∧
    ((p.refund (some a)).amount = p.amount) ∧
    ((p.refund (some a)).status = PurchaseStatus.refunded ↔
      p.amount ≤ (p.refund (some a)).amountRefunded) ∧
    ((p.refund (some a)).status = PurchaseStatus.partRefunded ↔
      ¬ p.amount ≤ (p.refund (some a)).amountRefunded) ∧
    ((p.refund (some a)).amountRefunded ≤ p.amount) ∧
    (((PurchaseRow.mk 2999 0 PurchaseStatus.paid).refund (some 1000)).refund
        (some 1999) =
      PurchaseRow.mk 2999 2999 PurchaseStatus.refunded) := by
  have hamt : (p.refund (some a)).amountRefunded = p.amountRefunded + a := rfl
  have hA : (p.refund (some a)).amount = p.amount := rfl
  refine ⟨hamt, hA, ?_, ?_, ?_, by decide⟩
  · by_cases h : p.amountRefunded ≥ p.amount - a
    · have hst : (p.refund (some a)).status = PurchaseStatus.refunded := by
        simp [PurchaseRow.refund, h]
      rw [hst, hamt]
      constructor
      · intro _
        omega
      · intro _
        rfl
    · have hst : (p.refund (some a)).status = PurchaseStatus.partRefunded := by
        simp [PurchaseRow.refund, h]
      rw [hst, hamt]
      constructor
      · intro he
        simp at he
      · intro hc
        exfalso
        omega
  · by_cases h : p.amountRefunded ≥ p.amount - a
    · have hst : (p.refund (some a)).status = PurchaseStatus.refunded := by
        simp [PurchaseRow.refund, h]
      rw [hst, hamt]
      constructor
      · intro he
        simp at he
      · intro hc
        exact absurd (by omega : p.amount ≤ p.amountRefunded + a) hc
    · have hst : (p.refund (some a)).status = PurchaseStatus.partRefunded := by
        simp [PurchaseRow.refund, h]
      rw [hst, hamt]
      constructor
      · intro _
        omega
      · intro _
        rfl
  · rw [hamt]
    exact hb

theorem refund_arithmetic_witness :
    ((PurchaseRow.mk 2999 1000 PurchaseStatus.partRefunded).amountRefunded + 1999 ≤
      (PurchaseRow.mk 2999 1000 PurchaseStatus.partRefunded).amount) ∧
    ((PurchaseRow.mk 2999 1000 PurchaseStatus.partRefunded).refund
        (some 1999)).status = PurchaseStatus.refunded :=
  ⟨by decide,
    ((refund_arithmetic (PurchaseRow.mk 2999 1000 PurchaseStatus.partRefunded) 1999
      (by decide)).2.2.1).mpr (by decide)⟩

/-! ### Entitlements (`entitlement/models.py`, `entitlement/services.py`) -/

/-- An `Entitlement` row for one fixed `(customer, subscription)` pair
(the unique constraint on `(customer, feature, subscription)` keys rows
by `feature` here). -/
structure EntRow where
  feature : String
  grantedBy : String
  expiresAt : Option Int
  isActive : Bool
  revokedAt : Option Int
  revokeReason : String
  usageLimit : Option Nat
  usageCount : Nat
deriving Repr, DecidableEq

/-- The row for `feature`, if any (the `get_or_create` / `filter`
lookup key restricted to this subscription's rows). -/
def findFeature (rows : List EntRow) (f : String) : Option EntRow :=
  rows.find? (fun r => r.feature == f)

/-- Model of `entitlement.services.grant` (`entitlement/services.py` lines
27-55) on this subscription's rows: `get_or_create` keyed by feature
with the given defaults; an existing active row is left untouched; an
existing inactive row is reactivated in place — `is_active=True`,
`revoked_at=None`, `revoke_reason=""`, and `granted_by`, `expires_at`,
`usage_limit` overwritten — preserving `usage_count`. -/
def grant (rows : List EntRow) (feature grantedBy : String)
    (expiresAt : Option Int) (usageLimit : Option Nat) : List EntRow :=
  match findFeature rows feature with
  | none =>
    rows ++ [{ feature := feature, grantedBy := grantedBy, expiresAt := expiresAt,
               isActive := true, revokedAt := none, revokeReason := "",
               usageLimit := usageLimit, usageCount := 0 }]
  | some r =>
    if r.isActive then rows
    else rows.map (fun x =>
      if x.feature == feature then
        { x with
          isActive := true, revokedAt := none, revokeReason := "",
          grantedBy := grantedBy, expiresAt := expiresAt, usageLimit := usageLimit }
      else x)

/-- The `current` set in `sync_from_subscription`: features of the rows with
`is_active=True`. -/
def currentOf (rows : List EntRow) : List String :=
  (rows.filter (fun r => r.isActive)).map (fun r => r.feature)

/-- The set `desired - current`: the features to grant (`set(features)` minus
the active ones). -/
def toGrantOf (rows : List EntRow) (features : List String) : List String :=
  features.dedup.filter (fun f => !(currentOf rows).contains f)

/-- The set `removed = current - desired`: the features to revoke. -/
def removedOf (rows : List EntRow) (features : List String) : List String :=
  (currentOf rows).filter (fun f => !features.contains f)

/-- The per-row effect of
`filter(feature__in=removed, is_active=True).revoke_all(reason=…)`
(`entitlement/models.py` line 24-25): `is_active=False`,
`revoked_at=now`, `revoke_reason` stamped. -/
def revApply (now : Int) (removed : List String) (r : EntRow) : EntRow :=
  if removed.contains r.feature && r.isActive then
    { r with
      isActive := false, revokedAt := some now,
      revokeReason := "Feature removed from subscription plan" }
  else r

/-- Model of `sync_from_subscription` (`entitlement/services.py` lines 87-111):
grant `desired - current` with `granted_by=SUBSCRIPTION` and default
`expires_at`/`usage_limit`, then bulk-revoke `current - desired` (the
revoke only runs when `removed` is nonempty, as in the source). -/
def sync_from_subscription (now : Int) (rows : List EntRow)
    (features : List String) : List EntRow :=
  let rows1 := (toGrantOf rows features).foldl
    (fun acc f => grant acc f "subscription" none none) rows
  let removed := removedOf rows features
  if removed.isEmpty then rows1
  else rows1.map (revApply now removed)

/-! ### Lemmas about entitlement rows -/

theorem findFeature_cons (x : EntRow) (xs : List EntRow) (f : String) :
    findFeature (x :: xs) f = if x.feature == f then some x else findFeature xs f := by
  simp only [findFeature, List.find?]
  cases h : (x.feature == f) <;> simp [h]

theorem findFeature_append_self (rows : List EntRow) (n : EntRow)
    (h : findFeature rows n.feature = none) :
    findFeature (rows ++ [n]) n.feature = some n := by
  induction rows with
  | nil => simp [findFeature_cons]
  | cons r rest ih =>
    rw [findFeature_cons] at h
    rw [List.cons_append, findFeature_cons]
    cases hr : (r.feature == n.feature) with
    | true => simp [hr] at h
    | false =>
      simp only [hr, Bool.false_eq_true, if_false] at h ⊢
      exact ih h

theorem findFeature_append_other (rows : List EntRow) (n : EntRow) (g : String)
    (h : g ≠ n.feature) :
    findFeature (rows ++ [n]) g = findFeature rows g := by
  induction rows with
  | nil =>
    have hne : (n.feature == g) = false := by
      simpa using fun e => h e.symm
    simp [findFeature_cons, hne, findFeature]
  | cons r rest ih =>
    rw [List.cons_append, findFeature_cons, findFeature_cons]
    cases hr : (r.feature == g) with
    | true => simp
    | false => simpa using ih

theorem findFeature_map (u : EntRow → EntRow) (hu : ∀ x, (u x).feature = x.feature)
    (rows : List EntRow) (g : String) :
    findFeature (rows.map u) g = (findFeature rows g).map u := by
  induction rows with
  | nil => rfl
  | cons r rest ih =>
    rw [List.map_cons, findFeature_cons, findFeature_cons]
    rw [hu r]
    cases hr : (r.feature == g) with
    | true => simp
    | false => simpa using ih

/-- The row produced by `grant` for feature `g` as a function of the
previously stored row (create / no-op / reactivate). -/
def grantResult (gb : String) (ea : Option Int) (ul : Option Nat) (g : String) :
    Option EntRow → Option EntRow
  | none =>
    some { feature := g, grantedBy := gb, expiresAt := ea, isActive := true,
           revokedAt := none, revokeReason := "", usageLimit := ul, usageCount := 0 }
  | some r =>
    if r.isActive then some r
    else some { r with
      isActive := true, revokedAt := none, revokeReason := "",
      grantedBy := gb, expiresAt := ea, usageLimit := ul }

/-- The reactivation map inside `grant` preserves the feature key. -/
theorem grant_update_feature (f gb : String) (ea : Option Int) (ul : Option Nat) :
    ∀ x : EntRow,
      ((fun x : EntRow =>
        if x.feature == f then
          { x with
            isActive := true, revokedAt := none, revokeReason := "",
            grantedBy := gb, expiresAt := ea, usageLimit := ul }
        else x) x).feature = x.feature := by
  intro x
  by_cases hx : (x.feature == f) <;> simp [hx]

theorem grant_find_other (rows : List EntRow) (f gb : String)
    (ea : Option Int) (ul : Option Nat) (g : String) (h : g ≠ f) :
    findFeature (grant rows f gb ea ul) g = findFeature rows g := by
  unfold grant
  cases hf : findFeature rows f with
  | none => exact findFeature_append_other rows _ g h
  | some r =>
    by_cases hr : r.isActive
    · simp [hr]
    · have hrb : r.isActive = false := by rwa [Bool.not_eq_true] at hr
      simp only [hrb, Bool.false_eq_true, if_false]
      rw [findFeature_map _ (grant_update_feature f gb ea ul) rows g]
      cases hg : findFeature rows g with
      | none => rfl
      | some q =>
        have hq : q.feature = g := by
          have := List.find?_some (by simpa [findFeature] using hg)
          simpa using this
        have hqf : ¬ ((q.feature == f) = true) := by
          simp only [hq, beq_iff_eq]
          exact h
        rw [Option.map_some']
        rw [if_neg hqf]

theorem grant_find_self (rows : List EntRow) (f gb : String)
    (ea : Option Int) (ul : Option Nat) :
    findFeature (grant rows f gb ea ul) f =
      grantResult gb ea ul f (findFeature rows f) := by
  unfold grant
  cases hf : findFeature rows f with
  | none => exact findFeature_append_self rows _ hf
  | some r =>
    by_cases hr : r.isActive
    · simp [grantResult, hr, hf]
    · have hrb : r.isActive = false := by rwa [Bool.not_eq_true] at hr
      simp only [grantResult, hrb, Bool.false_eq_true, if_false]
      rw [findFeature_map _ (grant_update_feature f gb ea ul) rows f, hf]
      have hrf : (r.feature == f) = true := by
        have := List.find?_some (by simpa [findFeature] using hf)
        simpa using this
      rw [Option.map_some']
      rw [if_pos hrf]

theorem foldl_grant_not_mem (L : List String) (rows : List EntRow) (gb : String)
    (ea : Option Int) (ul : Option Nat) (g : String) (h : g ∉ L) :
    findFeature (L.foldl (fun acc f => grant acc f gb ea ul) rows) g =
      findFeature rows g := by
  induction L generalizing rows with
  | nil => rfl
  | cons f L2 ih =>
    have h1 : g ≠ f := fun e => h (by simp [e])
    have h2 : g ∉ L2 := fun e => h (by simp [e])
    rw [List.foldl_cons, ih _ h2, grant_find_other rows f gb ea ul g h1]

theorem foldl_grant_mem (L : List String) (rows : List EntRow) (gb : String)
    (ea : Option Int) (ul : Option Nat) (g : String)
    (hnd : L.Nodup) (h : g ∈ L) :
    findFeature (L.foldl (fun acc f => grant acc f gb ea ul) rows) g =
      grantResult gb ea ul g (findFeature rows g) := by
  induction L generalizing rows with
  | nil => cases h
  | cons f L2 ih =>
    rcases List.mem_cons.mp h with he | hm
    · subst he
      have hnot : g ∉ L2 := (List.nodup_cons.mp hnd).1
      rw [List.foldl_cons, foldl_grant_not_mem L2 _ gb ea ul g hnot,
        grant_find_self rows g gb ea ul]
    · have h1 : g ≠ f := by
        intro e
        exact (List.nodup_cons.mp hnd).1 (e ▸ hm)
      rw [List.foldl_cons, ih _ (List.nodup_cons.mp hnd).2 hm,
        grant_find_other rows f gb ea ul g h1]

theorem findFeature_of_mem (rows : List EntRow) (r : EntRow)
    (hnd : (rows.map EntRow.feature).Nodup) (hr : r ∈ rows) :
    findFeature rows r.feature = some r := by
  induction rows with
  | nil => cases hr
  | cons x rest ih =>
    have hnd1 : (x.feature :: rest.map EntRow.feature).Nodup := by
      rw [← List.map_cons]
      exact hnd
    rw [findFeature_cons]
    rcases List.mem_cons.mp hr with he | hm
    · subst he
      simp
    · have hx : (x.feature == r.feature) = false := by
        have hnotin : x.feature ∉ rest.map EntRow.feature := (List.nodup_cons.mp hnd1).1
        simp only [beq_eq_false_iff_ne, ne_eq]
        intro e
        exact hnotin (e ▸ List.mem_map_of_mem EntRow.feature hm)
      simp only [hx, Bool.false_eq_true, if_false]
      exact ih (List.nodup_cons.mp hnd1).2 hm

theorem mem_currentOf (rows : List EntRow) (f : String) :
    f ∈ currentOf rows ↔ ∃ r ∈ rows, r.isActive = true ∧ r.feature = f := by
  simp only [currentOf, List.mem_map, List.mem_filter]
  constructor
  · rintro ⟨r, ⟨hr, ha⟩, he⟩
    exact ⟨r, hr, ha, he⟩
  · rintro ⟨r, hr, ha, he⟩
    exact ⟨r, ⟨hr, ha⟩, he⟩

theorem not_mem_currentOf_of_none (rows : List EntRow) (f : String)
    (h : findFeature rows f = none) : f ∉ currentOf rows := by
  intro hc
  obtain ⟨r, hr, _, he⟩ := (mem_currentOf rows f).mp hc
  unfold findFeature at h
  exact List.find?_eq_none.mp h r hr (by simp [he])

theorem mem_toGrantOf (rows : List EntRow) (features : List String) (f : String) :
    f ∈ toGrantOf rows features ↔ f ∈ features ∧ f ∉ currentOf rows := by
  simp [toGrantOf, List.mem_filter, List.mem_dedup]

theorem toGrantOf_nodup (rows : List EntRow) (features : List String) :
    (toGrantOf rows features).Nodup :=
  (List.nodup_dedup features).filter _

theorem mem_removedOf (rows : List EntRow) (features : List String) (f : String) :
    f ∈ removedOf rows features ↔ f ∈ currentOf rows ∧ f ∉ features := by
  simp [removedOf, List.mem_filter]

theorem revApply_feature (now : Int) (removed : List String) (r : EntRow) :
    (revApply now removed r).feature = r.feature := by
  unfold revApply
  by_cases h : (removed.contains r.feature && r.isActive) = true
  · rw [if_pos h]
  · rw [if_neg h]

theorem revApply_not_removed (now : Int) (removed : List String) (r : EntRow)
    (h : r.feature ∉ removed) : revApply now removed r = r := by
  have hc : removed.contains r.feature = false := by simpa using h
  have hcond : ¬ ((removed.contains r.feature && r.isActive) = true) := by
    rw [Bool.and_eq_true]
    rintro ⟨h1, _⟩
    exact h (by simpa using h1)
  unfold revApply
  rw [if_neg hcond]

theorem revApply_inactive (now : Int) (removed : List String) (r : EntRow)
    (h : r.isActive = false) : revApply now removed r = r := by
  have hcond : ¬ ((removed.contains r.feature && r.isActive) = true) := by
    rw [Bool.and_eq_true]
    rintro ⟨_, h2⟩
    simp [h] at h2
  unfold revApply
  rw [if_neg hcond]

theorem revApply_active_removed (now : Int) (removed : List String) (r : EntRow)
    (hm : r.feature ∈ removed) (ha : r.isActive = true) :
    revApply now removed r =
      { r with
        isActive := false, revokedAt := some now,
        revokeReason := "Feature removed from subscription plan" } := by
  have hc : removed.contains r.feature = true := by simpa using hm
  have hcond : (removed.contains r.feature && r.isActive) = true := by
    rw [Bool.and_eq_true]
    exact ⟨hc, ha⟩
  unfold revApply
  rw [if_pos hcond]

theorem sync_eq (now : Int) (rows : List EntRow) (features : List String) :
    sync_from_subscription now rows features =
      ((toGrantOf rows features).foldl
        (fun acc f => grant acc f "subscription" none none) rows).map
        (revApply now (removedOf rows features)) := by
  unfold sync_from_subscription
  by_cases h : (removedOf rows features).isEmpty
  · have hrem : removedOf rows features = [] := by
      simpa [List.isEmpty_iff] using h
    simp only [h, if_true, hrem]
    have hid : ∀ r : EntRow, revApply now [] r = r := by
      intro r
      simp [revApply]
    rw [show revApply now [] = fun r => r from funext hid, List.map_id']
    exact ite_self _
  · simp [h]

/-- C4: entitlement sync computes an exact set diff: features active
and desired keep their row bit-for-bit (`usage_count` included);
features active but not desired are revoked in place (`is_active=false`,
`revoked_at` stamped, reason recorded); desired features with no row
get a fresh subscription-granted row and desired features with a
revoked row are reactivated in place preserving `usage_count`; rows
that are inactive and not desired are untouched. -/
theorem entitlement_sync_exact_diff (now : Int) (rows : List EntRow)
    (features : List String)
    (hnd : (rows.map EntRow.feature).Nodup) :
    (∀ r ∈ rows, r.isActive = true → r.feature ∈ features →
      findFeature (sync_from_subscription now rows features) r.feature = some r) ∧
    (∀ r ∈ rows, r.isActive = true → r.feature ∉ features →
      findFeature (sync_from_subscription now rows features) r.feature =
        some { r with
          isActive := false, revokedAt := some now,
          revokeReason := "Feature removed from subscription plan" }) ∧
    (∀ f ∈ features, findFeature rows f = none →
      findFeature (sync_from_subscription now rows features) f =
        some { feature := f, grantedBy := "subscription", expiresAt := none,
               isActive := true, revokedAt := none, revokeReason := "",
               usageLimit := none, usageCount := 0 }) ∧
    (∀ f ∈ features, ∀ r : EntRow, findFeature rows f = some r → r.isActive = false →
      findFeature (sync_from_subscription now rows features) f =
        some { r with
          isActive := true, revokedAt := none, revokeReason := "",
          grantedBy := "subscription", expiresAt := none, usageLimit := none }) ∧
    (∀ r ∈ rows, r.isActive = false → r.feature ∉ features →
      findFeature (sync_from_subscription now rows features) r.feature = some r) := by
  have hmapfind : ∀ g, findFeature (sync_from_subscription now rows features) g =
      (findFeature ((toGrantOf rows features).foldl
        (fun acc f => grant acc f "subscription" none none) rows) g).map
        (revApply now (removedOf rows features)) := by
    intro g
    rw [sync_eq, findFeature_map _ (fun x => revApply_feature now _ x)]
  refine ⟨?_, ?_, ?_, ?_, ?_⟩
  · intro r hr ha hf
    have hfind : findFeature rows r.feature = some r := findFeature_of_mem rows r hnd hr
    have hcur : r.feature ∈ currentOf rows :=
      (mem_currentOf rows r.feature).mpr ⟨r, hr, ha, rfl⟩
    have hng : r.feature ∉ toGrantOf rows features :=
      fun hg => ((mem_toGrantOf rows features r.feature).mp hg).2 hcur
    have hnr : r.feature ∉ removedOf rows features :=
      fun hg => ((mem_removedOf rows features r.feature).mp hg).2 hf
    rw [hmapfind, foldl_grant_not_mem _ _ _ _ _ _ hng, hfind, Option.map_some',
      revApply_not_removed now _ r hnr]
  · intro r hr ha hf
    have hfind : findFeature rows r.feature = some r := findFeature_of_mem rows r hnd hr
    have hcur : r.feature ∈ currentOf rows :=
      (mem_currentOf rows r.feature).mpr ⟨r, hr, ha, rfl⟩
    have hng : r.feature ∉ toGrantOf rows features :=
      fun hg => hf ((mem_toGrantOf rows features r.feature).mp hg).1
    have hmr : r.feature ∈ removedOf rows features :=
      (mem_removedOf rows features r.feature).mpr ⟨hcur, hf⟩
    rw [hmapfind, foldl_grant_not_mem _ _ _ _ _ _ hng, hfind, Option.map_some',
      revApply_active_removed now _ r hmr ha]
  · intro f hf hnone
    have hncur : f ∉ currentOf rows := not_mem_currentOf_of_none rows f hnone
    have hg : f ∈ toGrantOf rows features :=
      (mem_toGrantOf rows features f).mpr ⟨hf, hncur⟩
    have hnr : f ∉ removedOf rows features :=
      fun hx => ((mem_removedOf rows features f).mp hx).2 hf
    rw [hmapfind, foldl_grant_mem _ _ _ _ _ _ (toGrantOf_nodup rows features) hg,
      hnone]
    simp only [grantResult, Option.map_some']
    rw [revApply_not_removed now _ _ hnr]
  · intro f hf r hfind hina
    have hncur : f ∉ currentOf rows := by
      intro hc
      obtain ⟨q, hq, hqa, hqe⟩ := (mem_currentOf rows f).mp hc
      have hq2 : findFeature rows q.feature = some q := findFeature_of_mem rows q hnd hq
      rw [hqe, hfind] at hq2
      have hrq := Option.some.inj hq2
      rw [← hrq] at hqa
      rw [hina] at hqa
      exact Bool.noConfusion hqa
    have hg : f ∈ toGrantOf rows features :=
      (mem_toGrantOf rows features f).mpr ⟨hf, hncur⟩
    have hnr : f ∉ removedOf rows features :=
      fun hx => ((mem_removedOf rows features f).mp hx).2 hf
    have hrf : r.feature = f := by
      have := List.find?_some
        (show rows.find? (fun x => x.feature == f) = some r from hfind)
      simpa using this
    rw [hmapfind, foldl_grant_mem _ _ _ _ _ _ (toGrantOf_nodup rows features) hg,
      hfind]
    simp only [grantResult, hina, Bool.false_eq_true, if_false, Option.map_some']
    rw [revApply_not_removed now _ _ (by rw [hrf]; exact hnr)]
  · intro r hr hina hf
    have hfind : findFeature rows r.feature = some r := findFeature_of_mem rows r hnd hr
    have hng : r.feature ∉ toGrantOf rows features :=
      fun hg => hf ((mem_toGrantOf rows features r.feature).mp hg).1
    rw [hmapfind, foldl_grant_not_mem _ _ _ _ _ _ hng, hfind, Option.map_some',
      revApply_inactive now _ r hina]

theorem entitlement_sync_exact_diff_witness :
    (([EntRow.mk "A" "subscription" none true none "" none 3,
       EntRow.mk "B" "subscription" none true none "" none 5].map
        EntRow.feature).Nodup) ∧
    findFeature
      (sync_from_subscription 7
        [EntRow.mk "A" "subscription" none true none "" none 3,
         EntRow.mk "B" "subscription" none true none "" none 5]
        ["B", "C"])
      "B" =
      some (EntRow.mk "B" "subscription" none true none "" none 5) :=
  ⟨by decide,
    (entitlement_sync_exact_diff 7
      [EntRow.mk "A" "subscription" none true none "" none 3,
       EntRow.mk "B" "subscription" none true none "" none 5]
      ["B", "C"] (by decide)).1
      (EntRow.mk "B" "subscription" none true none "" none 5)
      (by decide) (by decide) (by decide)⟩

/-! ### Scheduled events (`ScheduledEvent`, `process_scheduled_events`) -/

/-- A `ScheduledEvent` row (`core/models.py` lines 53-77): `id` is the
primary key; `executeAt` and `processedAt` are timestamps. -/
structure SchedRow where
  id : Nat
  executeAt : Int
  processed : Bool
  processedAt : Option Int
  attempts : Nat
  lastError : String
deriving Repr, DecidableEq

/-- The queryset filter of `process_scheduled_events`:
`processed=False AND execute_at <= now AND attempts < max_attempts`. -/
def eligible (now : Int) (maxAttempts : Nat) (r : SchedRow) : Bool :=
  !r.processed && decide (r.executeAt ≤ now) && decide (r.attempts < maxAttempts)

/-- Insertion into a list sorted by `execute_at` (`order_by` on that column). -/
def insertByExecuteAt (r : SchedRow) : List SchedRow → List SchedRow
  | [] => [r]
  | x :: xs =>
    if r.executeAt < x.executeAt then r :: x :: xs
    else x :: insertByExecuteAt r xs

/-- Sort by `execute_at` (insertion sort). -/
def sortByExecuteAt : List SchedRow → List SchedRow
  | [] => []
  | x :: xs => insertByExecuteAt x (sortByExecuteAt xs)

/-- The row for primary key `i`, if stored. -/
def findId (rows : List SchedRow) (i : Nat) : Option SchedRow :=
  rows.find? (fun r => r.id == i)

/-- The per-row effect of one poller run on a claimed row: on dispatch
success `processed=True, processed_at=now, attempts+=1`
(`core/tasks.py` lines 83-86); on failure the post-transaction
`filter(pk=…, processed=False).update(attempts=F("attempts")+1,
last_error=str(error)[:500])` (lines 91-95). -/
def pollApply (now : Int) (pending : List SchedRow) (outcome : Nat → Option String)
    (r : SchedRow) : SchedRow :=
  if pending.any (fun p => p.id == r.id) then
    match outcome r.id with
    | none =>
      { r with processed := true, processedAt := some now, attempts := r.attempts + 1 }
    | some err =>
      if r.processed then r
      else { r with attempts := r.attempts + 1, lastError := err.take 500 }
  else r

/-- The claimed batch: up to 100 eligible rows in `execute_at` order
(`qs[:100]` after the filter and `order_by`). -/
def pendingOf (now : Int) (maxAttempts : Nat) (rows : List SchedRow) : List SchedRow :=
  (sortByExecuteAt (rows.filter (eligible now maxAttempts))).take 100

/-- Model of `process_scheduled_events` (`core/tasks.py` lines 58-99): claim up
to 100 due, unprocessed, under-max-attempts rows ordered by
`execute_at`, dispatch each (`outcome` gives `none` on success or
`some message` on the raised exception), and update each claimed row
accordingly.  Rows never claimed are untouched. -/
def process_scheduled_events (now : Int) (maxAttempts : Nat)
    (outcome : Nat → Option String) (rows : List SchedRow) : List SchedRow :=
  rows.map (pollApply now (pendingOf now maxAttempts rows) outcome)

/-! ### Lemmas about the poller -/

theorem mem_insertByExecuteAt (r a : SchedRow) (l : List SchedRow) :
    a ∈ insertByExecuteAt r l ↔ a = r ∨ a ∈ l := by
  induction l with
  | nil => simp [insertByExecuteAt]
  | cons x xs ih =>
    rw [insertByExecuteAt]
    by_cases hc : r.executeAt < x.executeAt
    · rw [if_pos hc]
      simp
    · rw [if_neg hc]
      simp only [List.mem_cons, ih]
      tauto

theorem pairwise_insertByExecuteAt (r : SchedRow) (l : List SchedRow)
    (h : l.Pairwise (fun a b => a.executeAt ≤ b.executeAt)) :
    (insertByExecuteAt r l).Pairwise (fun a b => a.executeAt ≤ b.executeAt) := by
  induction l with
  | nil => simp [insertByExecuteAt]
  | cons x xs ih =>
    rw [insertByExecuteAt]
    by_cases hc : r.executeAt < x.executeAt
    · rw [if_pos hc]
      rw [List.pairwise_cons]
      refine ⟨?_, h⟩
      intro b hb
      rcases List.mem_cons.mp hb with he | hm
      · rw [he]
        exact le_of_lt hc
      · exact le_trans (le_of_lt hc) ((List.pairwise_cons.mp h).1 b hm)
    · rw [if_neg hc]
      rw [List.pairwise_cons] at h ⊢
      refine ⟨?_, ih h.2⟩
      intro b hb
      rcases (mem_insertByExecuteAt r b xs).mp hb with he | hm
      · rw [he]
        exact le_of_not_lt hc
      · exact h.1 b hm

theorem mem_sortByExecuteAt (a : SchedRow) (l : List SchedRow) :
    a ∈ sortByExecuteAt l ↔ a ∈ l := by
  induction l with
  | nil => simp [sortByExecuteAt]
  | cons x xs ih =>
    rw [sortByExecuteAt, mem_insertByExecuteAt]
    simp [ih]

theorem pairwise_sortByExecuteAt (l : List SchedRow) :
    (sortByExecuteAt l).Pairwise (fun a b => a.executeAt ≤ b.executeAt) := by
  induction l with
  | nil => simp [sortByExecuteAt]
  | cons x xs ih =>
    rw [sortByExecuteAt]
    exact pairwise_insertByExecuteAt x _ ih

theorem findId_cons (x : SchedRow) (xs : List SchedRow) (i : Nat) :
    findId (x :: xs) i = if x.id == i then some x else findId xs i := by
  simp only [findId, List.find?]
  cases h : (x.id == i) <;> simp [h]

theorem findId_map (u : SchedRow → SchedRow) (hu : ∀ x, (u x).id = x.id)
    (rows : List SchedRow) (i : Nat) :
    findId (rows.map u) i = (findId rows i).map u := by
  induction rows with
  | nil => rfl
  | cons r rest ih =>
    rw [List.map_cons, findId_cons, findId_cons, hu r]
    cases hr : (r.id == i) with
    | true => simp
    | false => simpa using ih

theorem findId_of_mem (rows : List SchedRow) (r : SchedRow)
    (hnd : (rows.map SchedRow.id).Nodup) (hr : r ∈ rows) :
    findId rows r.id = some r := by
  induction rows with
  | nil => cases hr
  | cons x rest ih =>
    have hnd1 : (x.id :: rest.map SchedRow.id).Nodup := by
      rw [← List.map_cons]
      exact hnd
    rw [findId_cons]
    rcases List.mem_cons.mp hr with he | hm
    · subst he
      simp
    · have hx : (x.id == r.id) = false := by
        have hnotin : x.id ∉ rest.map SchedRow.id := (List.nodup_cons.mp hnd1).1
        simp only [beq_eq_false_iff_ne, ne_eq]
        intro e
        exact hnotin (e ▸ List.mem_map_of_mem SchedRow.id hm)
      simp only [hx, Bool.false_eq_true, if_false]
      exact ih (List.nodup_cons.mp hnd1).2 hm

theorem pollApply_id (now : Int) (pending : List SchedRow)
    (outcome : Nat → Option String) (r : SchedRow) :
    (pollApply now pending outcome r).id = r.id := by
  unfold pollApply
  by_cases h : (pending.any (fun p => p.id == r.id)) = true
  · rw [if_pos h]
    cases outcome r.id with
    | none => rfl
    | some err =>
      dsimp only
      by_cases hp : r.processed = true
      · rw [if_pos hp]
      · rw [if_neg hp]
  · rw [if_neg h]

theorem mem_pendingOf (now : Int) (maxAttempts : Nat) (rows : List SchedRow)
    (p : SchedRow) (hp : p ∈ pendingOf now maxAttempts rows) :
    p ∈ rows ∧ eligible now maxAttempts p = true := by
  unfold pendingOf at hp
  have h1 := List.mem_of_mem_take hp
  have h2 := (mem_sortByExecuteAt p _).mp h1
  exact List.mem_filter.mp h2

theorem any_id_true_of_mem (pending : List SchedRow) (r : SchedRow)
    (h : r ∈ pending) : pending.any (fun p => p.id == r.id) = true :=
  List.any_eq_true.mpr ⟨r, h, by simp⟩

theorem any_id_false_of_not_mem (now : Int) (maxAttempts : Nat)
    (rows : List SchedRow) (r : SchedRow)
    (hnd : (rows.map SchedRow.id).Nodup) (hr : r ∈ rows)
    (hnp : r ∉ pendingOf now maxAttempts rows) :
    (pendingOf now maxAttempts rows).any (fun p => p.id == r.id) = false := by
  rw [List.any_eq_false]
  intro p hp hbe
  have hpr : p.id = r.id := by simpa using hbe
  have hp1 := (mem_pendingOf now maxAttempts rows p hp).1
  have e1 : findId rows p.id = some p := findId_of_mem rows p hnd hp1
  have e2 : findId rows r.id = some r := findId_of_mem rows r hnd hr
  rw [hpr, e2] at e1
  rw [Option.some.inj e1] at hnp
  exact hnp hp

/-- C6: each poller run claims at most 100 rows, all unprocessed, due
(`execute_at <= now`) and under `max_attempts`, in `execute_at` order;
a claimed row whose dispatch succeeds ends `processed=true` with
`processed_at=now` and `attempts` incremented by one; a claimed row
whose dispatch raises keeps `processed=false`, gets `attempts`
incremented by one and the error message truncated to 500 characters
stored; every other row is untouched. -/
theorem scheduled_poller_contract (now : Int) (maxAttempts : Nat)
    (outcome : Nat → Option String) (rows : List SchedRow)
    (hnd : (rows.map SchedRow.id).Nodup) :
    (pendingOf now maxAttempts rows).length ≤ 100 ∧
    (∀ p ∈ pendingOf now maxAttempts rows,
      p ∈ rows ∧ p.processed = false ∧ p.executeAt ≤ now ∧
        p.attempts < maxAttempts) ∧
    (pendingOf now maxAttempts rows).Pairwise
      (fun a b => a.executeAt ≤ b.executeAt) ∧
    (∀ p ∈ pendingOf now maxAttempts rows, outcome p.id = none →
      findId (process_scheduled_events now maxAttempts outcome rows) p.id =
        some { p with
          processed := true, processedAt := some now,
          attempts := p.attempts + 1 }) ∧
    (∀ p ∈ pendingOf now maxAttempts rows, ∀ err, outcome p.id = some err →
      findId (process_scheduled_events now maxAttempts outcome rows) p.id =
        some { p with
          attempts := p.attempts + 1, lastError := err.take 500 }) ∧
    (∀ r ∈ rows, r ∉ pendingOf now maxAttempts rows →
      findId (process_scheduled_events now maxAttempts outcome rows) r.id =
        some r) := by
  have helig : ∀ p ∈ pendingOf now maxAttempts rows,
      p ∈ rows ∧ p.processed = false ∧ p.executeAt ≤ now ∧
        p.attempts < maxAttempts := by
    intro p hp
    obtain ⟨h1, h2⟩ := mem_pendingOf now maxAttempts rows p hp
    simp only [eligible, Bool.and_eq_true, Bool.not_eq_true',
      decide_eq_true_eq] at h2
    exact ⟨h1, h2.1.1, h2.1.2, h2.2⟩
  have hfind : ∀ r ∈ rows,
      findId (process_scheduled_events now maxAttempts outcome rows) r.id =
        some (pollApply now (pendingOf now maxAttempts rows) outcome r) := by
    intro r hr
    unfold process_scheduled_events
    rw [findId_map _ (pollApply_id now _ outcome), findId_of_mem rows r hnd hr,
      Option.map_some']
  refine ⟨?_, helig, ?_, ?_, ?_, ?_⟩
  · unfold pendingOf
    rw [List.length_take]
    exact min_le_left _ _
  · unfold pendingOf
    exact (pairwise_sortByExecuteAt _).sublist (List.take_sublist _ _)
  · intro p hp hout
    rw [hfind p (helig p hp).1]
    unfold pollApply
    rw [if_pos (any_id_true_of_mem _ p hp), hout]
  · intro p hp err hout
    have hproc : ¬ p.processed = true := by
      rw [(helig p hp).2.1]
      exact Bool.false_ne_true
    rw [hfind p (helig p hp).1]
    unfold pollApply
    rw [if_pos (any_id_true_of_mem _ p hp), hout]
    dsimp only
    rw [if_neg hproc]
  · intro r hr hnp
    rw [hfind r hr]
    unfold pollApply
    rw [if_neg (ne_true_of_eq_false
      (any_id_false_of_not_mem now maxAttempts rows r hnd hr hnp))]

theorem scheduled_poller_contract_witness :
    (([SchedRow.mk 1 5 false none 0 "", SchedRow.mk 2 50 false none 0 ""].map
        SchedRow.id).Nodup) ∧
    findId
      (process_scheduled_events 10 5 (fun _ => none)
        [SchedRow.mk 1 5 false none 0 "", SchedRow.mk 2 50 false none 0 ""]) 1 =
      some (SchedRow.mk 1 5 true (some 10) 1 "") :=
  ⟨by decide,
    (scheduled_poller_contract 10 5 (fun _ => none)
      [SchedRow.mk 1 5 false none 0 "", SchedRow.mk 2 50 false none 0 ""]
      (by decide)).2.2.2.1 (SchedRow.mk 1 5 false none 0 "") (by decide) rfl⟩
